import Mathlib

/-!
Verification of the clio clipboard-history daemon core against its
natural-language specification.

The Rust source is shallowly embedded:

* the SQLite-backed history store (src/db/repository.rs together with the
  schema in src/db/migrations.rs) becomes a pure `Store` value threaded
  through the operations, with the database clock passed explicitly as a
  `now` parameter;
* the action rule engine (src/actions.rs) becomes pure functions,
  parameterised by an execution oracle standing for external command
  invocation and by boolean matchers standing for compiled regular
  expressions;
* the TTL-restoration part of the watch loop (src/cli/watch.rs,
  check_expiry_and_restore) becomes a state-passing function whose clipboard
  read result is an explicit argument.

Timestamps (the created_at / expires_at columns: ISO-8601 strings whose
lexicographic order agrees with chronological order) are modelled as
integers counting milliseconds since the epoch; durations are naturals in
milliseconds; monotonic instants (std::time::Instant) are naturals.
A mutating call that can also fail (rusqlite's `?` operator on a live
connection) is modelled as `Store × Except String α`: the store component
records the mutations performed before the failure point, since SQLite
applies each statement immediately.
-/

namespace Clio

/-- Content of a clipboard entry: UTF-8 text or an encoded image blob
(EntryContent in the models module; the blob is a byte list). -/
inductive EntryContent where
  | text (t : String)
  | image (blob : List Nat)
  deriving DecidableEq, Repr

/-- entry.content.text(): the text for text entries, none for images. -/
def EntryContent.textOf : EntryContent → Option String
  | .text t => some t
  | .image _ => none

/-- matches!(entry.content, EntryContent::Image(_)). -/
def EntryContent.isImage : EntryContent → Bool
  | .text _ => false
  | .image _ => true

/-- A candidate clipboard entry as passed to the store (ClipboardEntry before
insertion: id and created_at are assigned by the database).  The content hash
is carried as a field, exactly as in the Rust struct where it is computed once
from the content bytes at construction time. -/
structure ClipboardEntry where
  content : EntryContent
  content_hash : Nat
  source_app : Option String
  source_title : Option String
  expires_at : Option Int
  deriving DecidableEq, Repr

/-- A persisted row of the clipboard_entries table (the columns the claims
depend on; source_title and metadata are never read back by the operations
under study). -/
structure Row where
  id : Nat
  content : EntryContent
  content_hash : Nat
  source_app : Option String
  created_at : Int
  expires_at : Option Int
  deriving DecidableEq, Repr

/-- The clipboard_entries table plus the AUTOINCREMENT counter. -/
structure Store where
  rows : List Row
  nextId : Nat
  deriving DecidableEq, Repr

def Store.empty : Store := { rows := [], nextId := 0 }

/-- chrono TimeDelta::MAX in milliseconds (i64::MAX: TimeDelta stores
milliseconds in an i64); chrono::Duration::from_std errors beyond it. -/
def DELTA_MAX_MS : Nat := 9223372036854775807

/-- chrono NaiveDateTime::MAX (year 262143) in milliseconds since the epoch.
The exact value is irrelevant to the claims: only its order of magnitude
(about 8.2e15, far below DELTA_MAX_MS at about 9.2e18) matters. -/
def DATETIME_MAX_MS : Int := 8210298412799999

/-- chrono NaiveDateTime::MIN (year -262144) in milliseconds since the epoch. -/
def DATETIME_MIN_MS : Int := -8334632851200000

/-- WHERE expires_at IS NOT NULL AND expires_at < now. -/
def isExpired (now : Int) (r : Row) : Bool :=
  match r.expires_at with
  | some t => decide (t < now)
  | none => false

/-- SELECT ... WHERE content_hash = ?1 with rows.next(): the first matching
row in table order. -/
def find_by_hash (s : Store) (h : Nat) : Option Row :=
  s.rows.find? (fun r => r.content_hash == h)

/-- INSERT INTO clipboard_entries ...: created_at defaults to now
(migrations.rs), id is the AUTOINCREMENT counter.  The UNIQUE index
idx_entries_hash on content_hash makes the insert fail on a duplicate
hash without touching the table. -/
def mkRow (id : Nat) (e : ClipboardEntry) (now : Int) : Row :=
  { id := id, content := e.content, content_hash := e.content_hash,
    source_app := e.source_app, created_at := now, expires_at := e.expires_at }

def insert_entry (s : Store) (e : ClipboardEntry) (now : Int) :
    Store × Except String Nat :=
  if s.rows.any (fun r => r.content_hash == e.content_hash) then
    (s, .error "UNIQUE constraint failed: clipboard_entries.content_hash")
  else
    ({ rows := s.rows ++ [mkRow s.nextId e now], nextId := s.nextId + 1 },
     .ok s.nextId)

/-- SQL COALESCE of an incoming optional value with the stored one. -/
def coalesce {α : Type} : Option α → Option α → Option α
  | some v, _ => some v
  | none, old => old

/-- UPDATE ... SET created_at = now, expires_at = COALESCE(?2, expires_at),
source_app = COALESCE(?3, source_app) WHERE id = ?1. -/
def update_on_dedup (s : Store) (id : Nat) (expires_at : Option Int)
    (source_app : Option String) (now : Int) : Store :=
  { s with rows := s.rows.map (fun r =>
      if r.id = id then
        { r with created_at := now,
                 expires_at := coalesce expires_at r.expires_at,
                 source_app := coalesce source_app r.source_app }
      else r) }

/-- DELETE FROM clipboard_entries WHERE id = ?1. -/
def delete_entry (s : Store) (id : Nat) : Store :=
  { s with rows := s.rows.filter (fun r => !(r.id == id)) }

/-- ORDER BY created_at ASC realised as a boolean total preorder on rows;
SQLite leaves the order of rows with equal created_at unspecified, so the
model fixes the id (rowid) as tiebreaker, which is what a scan of the
created_at index yields in practice. -/
def rowLE (a b : Row) : Bool :=
  decide (a.created_at < b.created_at) ||
    (decide (a.created_at = b.created_at) && decide (a.id ≤ b.id))

/-- prune_oldest: count the rows; if over max_count, DELETE the rows whose id
is among the first (count - max_count) ids in created_at-ascending order. -/
def prune_oldest (s : Store) (max_count : Nat) : Store × Nat :=
  let count := s.rows.length
  if count ≤ max_count then (s, 0)
  else
    let to_delete := count - max_count
    let victims := ((s.rows.mergeSort rowLE).take to_delete).map Row.id
    let kept := s.rows.filter (fun r => !(victims.contains r.id))
    ({ s with rows := kept }, s.rows.length - kept.length)

/-- prune_expired: first DELETE rows whose expires_at is set and in the past
(counted unconditionally); then, when max_age is supplied, convert it with
chrono::Duration::from_std (erroring beyond TimeDelta::MAX, after the first
DELETE has already been applied) and DELETE rows created before now - max_age.
The two execute() counts are summed. -/
def prune_expired (s : Store) (max_age : Option Nat) (now : Int) :
    Store × Except String Nat :=
  let n1 := s.rows.countP (isExpired now)
  let s1 : Store := { s with rows := s.rows.filter (fun r => !(isExpired now r)) }
  match max_age with
  | none => (s1, .ok n1)
  | some age =>
    if age ≤ DELTA_MAX_MS then
      let cutoff : Int := now - (age : Int)
      let n2 := s1.rows.countP (fun r => decide (r.created_at < cutoff))
      let s2 : Store :=
        { s1 with rows := s1.rows.filter (fun r => !(decide (r.created_at < cutoff))) }
      (s2, .ok (n1 + n2))
    else (s1, .error "max_age duration too large")

/-- WHERE expires_at IS NULL OR expires_at >= now. -/
def isActive (now : Int) (r : Row) : Bool :=
  match r.expires_at with
  | none => true
  | some t => decide (now ≤ t)

/-- get_latest_active: among rows whose expiry is absent or still in the
future, the one maximal for created_at (ORDER BY created_at DESC LIMIT 1),
with the id as deterministic tiebreaker as in rowLE. -/
def get_latest_active (s : Store) (now : Int) : Option Row :=
  (s.rows.filter (isActive now)).foldl
    (fun acc r =>
      match acc with
      | none => some r
      | some b => if rowLE b r then some r else some b)
    none

/-- save_or_update: always prune expired entries first; then dedup-merge via
update_on_dedup when a row with the entry's content hash exists, otherwise
insert as new and evict the oldest rows beyond max_history. -/
def save_or_update (s : Store) (e : ClipboardEntry) (max_history : Nat)
    (max_age : Option Nat) (now : Int) : Store × Except String Nat :=
  match prune_expired s max_age now with
  | (s1, .error msg) => (s1, .error msg)
  | (s1, .ok _) =>
    match find_by_hash s1 e.content_hash with
    | some existing =>
      (update_on_dedup s1 existing.id e.expires_at e.source_app now, .ok existing.id)
    | none =>
      match insert_entry s1 e now with
      | (s2, .error msg) => (s2, .error msg)
      | (s2, .ok id) => ((prune_oldest s2 max_history).1, .ok id)

/-! ## Action rule engine (src/actions.rs)

A compiled regular expression is modelled as its matcher `String → Bool`
(Regex::is_match); external command execution is an oracle
`List String → String → Nat → Option String` returning the stdout text on
success and none on any failure (spawn failure, timeout, non-zero exit,
invalid UTF-8 output) — run_command's four error paths all collapse to Err,
which is all apply_rules observes. -/

/-- Validated rule with compiled conditions (CompiledRule in the config
module).  ttl and command_timeout are durations in milliseconds. -/
structure CompiledRule where
  name : String
  source_app : Option String
  content_regex : Option (String → Bool)
  source_title_regex : Option (String → Bool)
  ttl : Option Nat
  command : Option (List String)
  command_timeout : Nat

/-- Result of run_command, abstracted: some stdout text or a failure. -/
def ExecOracle : Type := List String → String → Nat → Option String

/-- rule_matches: every condition the rule specifies must hold.  The three
early-return gates of the Rust function appear in the same order: exact
source-app match (absent app never matches), content regex (an image entry
short-circuits to non-match; absent text never matches), title regex
(absent title never matches). -/
def rule_matches (rule : CompiledRule) (source_app : Option String)
    (text : Option String) (is_image : Bool) (source_title : Option String) :
    Bool :=
  let appOk :=
    match rule.source_app with
    | some expected =>
      match source_app with
      | some actual => actual == expected
      | none => false
    | none => true
  if !appOk then false
  else
    let contentOk :=
      match rule.content_regex with
      | some re =>
        if is_image then false
        else
          match text with
          | some t => re t
          | none => false
      | none => true
    if !contentOk then false
    else
      match rule.source_title_regex with
      | some re =>
        match source_title with
        | some t => re t
        | none => false
      | none => true

/-- The command action of one matching rule: only while the running text is
present, replace it by the command output on success and keep it unchanged
on failure (a warning is printed and evaluation continues). -/
def stepText (exec : ExecOracle) (timeout : Nat) (command : Option (List String))
    (txt : Option String) : Option String :=
  match command with
  | some cmd =>
    match txt with
    | some input =>
      match exec cmd input timeout with
      | some output => some output
      | none => txt
    | none => txt
  | none => txt

/-- One iteration of the rule loop in apply_rules, acting on the running
state (computed TTL, current text): on a match the rule's TTL (if any)
overwrites the computed TTL, then the rule's command acts on the text. -/
def applyStep (exec : ExecOracle) (source_app : Option String) (is_image : Bool)
    (source_title : Option String) (st : Option Nat × Option String)
    (rule : CompiledRule) : Option Nat × Option String :=
  if rule_matches rule source_app st.2 is_image source_title then
    ((match rule.ttl with
      | some t => some t
      | none => st.1),
     stepText exec rule.command_timeout rule.command st.2)
  else st

/-- chrono::Duration::from_std: errors when the std duration exceeds
TimeDelta::MAX. -/
def chronoFromStd (ms : Nat) : Option Int :=
  if ms ≤ DELTA_MAX_MS then some (ms : Int) else none

/-- DateTime + TimeDelta in chrono is checked_add_signed(..).expect(..):
none models the panic on leaving the representable datetime range. -/
def checkedAddMs (t d : Int) : Option Int :=
  if DATETIME_MIN_MS ≤ t + d ∧ t + d ≤ DATETIME_MAX_MS then some (t + d) else none

/-- The ttl-to-expires_at closure of apply_rules (lines 68-78 of actions.rs):
convert the matched duration, falling back to chrono::Duration::MAX with a
warning when it cannot be represented, then add it to now.  A none result is
the panic of the chrono addition. -/
def expiresFromTtl (now : Int) (ttlMs : Nat) : Option Int :=
  let d : Int :=
    match chronoFromStd ttlMs with
    | some d => d
    | none => (DELTA_MAX_MS : Int)
  checkedAddMs now d

/-- ActionResult of src/actions.rs. -/
structure ActionResult where
  transformed_text : Option String
  expires_at : Option Int
  ttl : Option Nat
  deriving DecidableEq, Repr

/-- The (ttl, current text) state at the end of the rule loop of
apply_rules: the fold of applyStep over the rules in definition order,
starting from no TTL and the entry's own text. -/
def passState (exec : ExecOracle) (rules : List CompiledRule)
    (entry : ClipboardEntry) : Option Nat × Option String :=
  rules.foldl
    (applyStep exec entry.source_app entry.content.isImage entry.source_title)
    (none, entry.content.textOf)

/-- The transformed_text field of the result: the final text, only when both
texts are present and it differs from the original. -/
def transformedOf (text : Option String) (finalText : Option String) :
    Option String :=
  match text, finalText with
  | some original, some transformed =>
    if original == transformed then none else some transformed
  | _, _ => none

/-- The tail of apply_rules: convert the final TTL (if any) to an absolute
expiry with expiresFromTtl.  A none result models the panic inside the
ttl.map closure (datetime overflow); every other path returns some. -/
def finishPass (transformed : Option String) (now : Int) :
    Option Nat → Option ActionResult
  | none => some { transformed_text := transformed, expires_at := none, ttl := none }
  | some d =>
    match expiresFromTtl now d with
    | some ts =>
      some { transformed_text := transformed, expires_at := some ts, ttl := some d }
    | none => none

/-- apply_rules: fold the rule list in definition order over the
(ttl, current text) state, report the text only when changed, and convert
the final TTL to an absolute expiry. -/
def apply_rules (exec : ExecOracle) (rules : List CompiledRule)
    (entry : ClipboardEntry) (now : Int) : Option ActionResult :=
  finishPass
    (transformedOf entry.content.textOf (passState exec rules entry).2)
    now (passState exec rules entry).1

/-! ## Watch loop TTL restoration (src/cli/watch.rs) -/

/-- The TTL-tracking fields of WatchState: the instant at which the current
entry's TTL expires and the content hash it applies to. -/
structure TrackState where
  current_expiry : Option Nat
  current_expiry_hash : Option Nat
  deriving DecidableEq, Repr

/-- RestoreResult of watch.rs: the hash now in the clipboard and the text
written (empty for images and for the clear-to-empty case). -/
structure RestoreResult where
  clipboard_hash : Nat
  restored_text : String
  deriving DecidableEq, Repr

/-- blake3 hash of the empty byte string, as an abstract hash value
(compute_hash("") in the clear-to-empty branch). -/
def EMPTY_HASH : Nat := 0

/-- check_expiry_and_restore.  Arguments beyond the state: `dec` is the
image::load_from_memory oracle (whether a stored blob decodes), `nowI` the
monotonic instant, `live` the content hash currently observed in the
clipboard (none when the clipboard is unreadable or empty), `s` the store and
`now` the wall clock.  Returns the new tracking state, the store after the
re-run pruning, and the restoration write performed, if any. -/
def check_expiry_and_restore (dec : List Nat → Bool) (st : TrackState)
    (nowI : Nat) (live : Option Nat) (s : Store) (max_age : Option Nat)
    (now : Int) : TrackState × Store × Option RestoreResult :=
  match st.current_expiry with
  | none => (st, s, none)
  | some expiry =>
    if nowI < expiry then (st, s, none)
    else
      -- TTL expired: reset tracking, then re-run pruning (errors only logged)
      let st' : TrackState := { current_expiry := none, current_expiry_hash := none }
      let expired_hash := st.current_expiry_hash
      let s1 := (prune_expired s max_age now).1
      let stillInClipboard :=
        match live, expired_hash with
        | some current, some expired => current == expired
        | _, _ => false
      if !stillInClipboard then (st', s1, none)
      else
        match get_latest_active s1 now with
        | some entry =>
          match entry.content with
          | .text t => (st', s1, some { clipboard_hash := entry.content_hash, restored_text := t })
          | .image blob =>
            if dec blob then
              (st', s1, some { clipboard_hash := entry.content_hash, restored_text := "" })
            else (st', s1, none)
        | none =>
          (st', s1, some { clipboard_hash := EMPTY_HASH, restored_text := "" })

/-! ## Specification-side definitions

`matchedTtls` restates, in the words of the spec, which TTL the evaluation
pass should produce: it replays the same pass, with the same text evolution,
but collects the TTLs of all matching TTL-bearing rules in order; the spec's
last-matching-rule-wins contract then says the engine's TTL is the last
element of this list. -/

/-- One step of the replay: same match test and same text evolution as
applyStep, but TTLs are appended to a trace instead of overwriting. -/
def matchedTtlStep (exec : ExecOracle) (source_app : Option String)
    (is_image : Bool) (source_title : Option String)
    (st : List Nat × Option String) (rule : CompiledRule) :
    List Nat × Option String :=
  if rule_matches rule source_app st.2 is_image source_title then
    ((match rule.ttl with
      | some t => st.1 ++ [t]
      | none => st.1),
     stepText exec rule.command_timeout rule.command st.2)
  else st

/-- The TTLs of the matching TTL-bearing rules of one pass, in match order. -/
def matchedTtls (exec : ExecOracle) (rules : List CompiledRule)
    (source_app : Option String) (is_image : Bool)
    (source_title : Option String) (text0 : Option String) : List Nat :=
  (rules.foldl (matchedTtlStep exec source_app is_image source_title)
    ([], text0)).1

/-! ## Invariant predicates and helpers -/

/-- No two rows share a content hash (the idx_entries_hash UNIQUE index). -/
def NoDupHash (s : Store) : Prop :=
  s.rows.Pairwise (fun a b => a.content_hash ≠ b.content_hash)

/-- No two rows share an id (id is the INTEGER PRIMARY KEY). -/
def NoDupId (s : Store) : Prop :=
  s.rows.Pairwise (fun a b => a.id ≠ b.id)

/-- Every row id is below the AUTOINCREMENT counter. -/
def IdsBelow (s : Store) : Prop :=
  ∀ r ∈ s.rows, r.id < s.nextId

/-- The configured max_age, when present, is convertible by
chrono::Duration::from_std (otherwise prune_expired errors out). -/
def AgeOk (age : Option Nat) : Prop :=
  ∀ a, age = some a → a ≤ DELTA_MAX_MS

instance : DecidablePred AgeOk := fun age => by
  unfold AgeOk
  cases age with
  | none => exact isTrue (by intro a h; cases h)
  | some a =>
    by_cases h : a ≤ DELTA_MAX_MS
    · exact isTrue (by intro b hb; cases hb; exact h)
    · exact isFalse (by intro hall; exact h (hall a rfl))

/-! ## Concrete fixtures used by witnesses and counterexamples -/

/-- A rule whose only condition is a content regex matching everything
(the pattern `.*`). -/
def c7Rule : CompiledRule :=
  { name := "match-all-content", source_app := none,
    content_regex := some (fun _ => true), source_title_regex := none,
    ttl := some 30000, command := none, command_timeout := 5000 }

/-- A 2x2 image entry (the blob stands for the PNG bytes). -/
def c7ImageEntry : ClipboardEntry :=
  { content := .image [137, 80, 78, 71], content_hash := 11,
    source_app := none, source_title := none, expires_at := none }

/-- A rule whose only condition is a source-title regex matching everything. -/
def c10Rule : CompiledRule :=
  { name := "match-all-title", source_app := none, content_regex := none,
    source_title_regex := some (fun _ => true), ttl := some 30000,
    command := none, command_timeout := 5000 }

/-- A rule with a 10^19 ms (about 3*10^8 years) TTL: beyond TimeDelta::MAX,
so chrono::Duration::from_std fails and the fallback is Duration::MAX. -/
def c6Rule : CompiledRule :=
  { name := "huge-ttl", source_app := none,
    content_regex := some (fun _ => true), source_title_regex := none,
    ttl := some 10000000000000000000, command := none, command_timeout := 5000 }

/-- A plain text entry. -/
def c6Entry : ClipboardEntry :=
  { content := .text "hello", content_hash := 7, source_app := none,
    source_title := none, expires_at := none }

/-- An execution oracle on which every command invocation fails. -/
def failExec : ExecOracle := fun _ _ _ => none

/-- A rule matching all text whose command always fails (exits non-zero). -/
def c5Rule : CompiledRule :=
  { name := "failing-command", source_app := none,
    content_regex := some (fun _ => true), source_title_regex := none,
    ttl := none, command := some ["false"], command_timeout := 5000 }

/-- The input "hello" of the command-failure test. -/
def c5Entry : ClipboardEntry :=
  { content := .text "hello", content_hash := 5, source_app := none,
    source_title := none, expires_at := none }

/-- First of two always-matching rules: TTL 30s. -/
def c4Rule30 : CompiledRule :=
  { name := "ttl-30s", source_app := none,
    content_regex := some (fun _ => true), source_title_regex := none,
    ttl := some 30000, command := none, command_timeout := 5000 }

/-- Second of two always-matching rules: TTL 60s. -/
def c4Rule60 : CompiledRule :=
  { name := "ttl-60s", source_app := none,
    content_regex := some (fun _ => true), source_title_regex := none,
    ttl := some 60000, command := none, command_timeout := 5000 }

/-- The entry both TTL rules match. -/
def c4Entry : ClipboardEntry :=
  { content := .text "hello", content_hash := 9, source_app := none,
    source_title := none, expires_at := none }

/-- A row with a past expiry at now = 100 (deleted by the TTL pass). -/
def c8RowExpired : Row :=
  { id := 0, content := .text "expiring", content_hash := 1,
    source_app := none, created_at := 90, expires_at := some 50 }

/-- A row older than the max-age cutoff (deleted by the age pass). -/
def c8RowOld : Row :=
  { id := 1, content := .text "old", content_hash := 2,
    source_app := none, created_at := 10, expires_at := none }

/-- A fresh row surviving both pruning passes. -/
def c8RowFresh : Row :=
  { id := 2, content := .text "fresh", content_hash := 3,
    source_app := none, created_at := 95, expires_at := none }

/-- A store holding the three pruning test rows. -/
def c8Store : Store :=
  { rows := [c8RowExpired, c8RowOld, c8RowFresh], nextId := 3 }

/-- A stored row with an expiry and a source app, to be dedup-merged. -/
def c2Row : Row :=
  { id := 7, content := .text "hello", content_hash := 5,
    source_app := some "Firefox", created_at := 50, expires_at := some 200 }

/-- The store holding the dedup test row. -/
def c2Store : Store := { rows := [c2Row], nextId := 8 }

/-- An incoming duplicate of c2Row with no expiry and no source app. -/
def c2Entry : ClipboardEntry :=
  { content := .text "hello", content_hash := 5, source_app := none,
    source_title := none, expires_at := none }

instance : DecidablePred NoDupHash := fun s =>
  List.instDecidablePairwise s.rows

instance : DecidablePred NoDupId := fun s =>
  List.instDecidablePairwise s.rows

instance : DecidablePred IdsBelow := fun s =>
  List.decidableBAll (fun r : Row => r.id < s.nextId) s.rows

/-- One save_or_update invocation of a call sequence. -/
structure SaveCall where
  entry : ClipboardEntry
  max_history : Nat
  max_age : Option Nat
  now : Int

/-- The store produced by a sequence of save_or_update calls starting from
the empty store (errors leave the partially pruned store in place, as the
connection does). -/
def runSaves (calls : List SaveCall) : Store :=
  calls.foldl
    (fun s c => (save_or_update s c.entry c.max_history c.max_age c.now).1)
    Store.empty

/-- First stored row of the capacity counterexample (hash 1). -/
def c9RowA : Row :=
  { id := 0, content := .text "a", content_hash := 1, source_app := none,
    created_at := 10, expires_at := none }

/-- Second stored row of the capacity counterexample (hash 2). -/
def c9RowB : Row :=
  { id := 1, content := .text "b", content_hash := 2, source_app := none,
    created_at := 20, expires_at := none }

/-- A store already holding two live rows. -/
def c9Store : Store := { rows := [c9RowA, c9RowB], nextId := 2 }

/-- An incoming duplicate of c9RowA. -/
def c9Entry : ClipboardEntry :=
  { content := .text "a", content_hash := 1, source_app := none,
    source_title := none, expires_at := none }

/-- An entry whose expiry (instant 0) is already past at save time. -/
def c1Entry : ClipboardEntry :=
  { content := .text "x", content_hash := 42, source_app := none,
    source_title := none, expires_at := some 0 }

/-- A live entry for the dedup-idempotence witness. -/
def c1LiveEntry : ClipboardEntry :=
  { content := .text "hello", content_hash := 6, source_app := none,
    source_title := none, expires_at := none }

/-- Two occurrences in a list whose keys pairwise differ and that agree on
the key are the same occurrence. -/
theorem pairwise_key_inj {α β : Type} (key : α → β) {l : List α}
    (h : l.Pairwise (fun a b => key a ≠ key b)) :
    ∀ a ∈ l, ∀ b ∈ l, key a = key b → a = b := by
  induction l with
  | nil => intro a ha; cases ha
  | cons x xs ih =>
    intro a ha b hb hk
    rcases List.pairwise_cons.mp h with ⟨hx, hxs⟩
    rcases List.mem_cons.mp ha with rfl | ha' <;>
      rcases List.mem_cons.mp hb with rfl | hb'
    · rfl
    · exact absurd hk (hx b hb')
    · exact absurd hk.symm (hx a ha')
    · exact ih hxs a ha' b hb' hk

/-- The rule loop leaves the state unchanged across rules that do not match. -/
theorem foldl_applyStep_of_no_match (exec : ExecOracle) (app : Option String)
    (img : Bool) (title : Option String) :
    ∀ (rules : List CompiledRule) (st : Option Nat × Option String),
      (∀ r ∈ rules, rule_matches r app st.2 img title = false) →
      rules.foldl (applyStep exec app img title) st = st := by
  intro rules
  induction rules with
  | nil => intro st _; rfl
  | cons r rs ih =>
    intro st hnm
    rw [List.foldl_cons]
    have hr : rule_matches r app st.2 img title = false := hnm r (List.mem_cons_self r rs)
    have hstep : applyStep exec app img title st r = st := by
      simp [applyStep, hr]
    rw [hstep]
    exact ih st (fun r' hr' => hnm r' (List.mem_cons_of_mem r hr'))

/-- C7: for every rule whose conditions include a content regex, rule
evaluation against an image entry yields non-match regardless of the regex
pattern and of the other conditions; consequently an evaluation pass over
rules that all carry a content regex leaves an image entry entirely
untouched (no transformed text, no expiry, no TTL). -/
theorem content_regex_never_matches_image :
    (∀ (rule : CompiledRule) (app text title : Option String),
        rule.content_regex.isSome →
        rule_matches rule app text true title = false) ∧
    (∀ (exec : ExecOracle) (rules : List CompiledRule) (e : ClipboardEntry)
        (now : Int),
        e.content.isImage = true →
        (∀ r ∈ rules, r.content_regex.isSome) →
        apply_rules exec rules e now =
          some { transformed_text := none, expires_at := none, ttl := none }) := by
  have part1 : ∀ (rule : CompiledRule) (app text title : Option String),
      rule.content_regex.isSome →
      rule_matches rule app text true title = false := by
    intro rule app text title hre
    obtain ⟨re, hre'⟩ := Option.isSome_iff_exists.mp hre
    simp [rule_matches, hre', ite_self]
  refine ⟨part1, ?_⟩
  intro exec rules e now himg hall
  obtain ⟨blob, hb⟩ : ∃ blob, e.content = .image blob := by
    cases hc : e.content with
    | text t => rw [hc] at himg; simp [EntryContent.isImage] at himg
    | image blob => exact ⟨blob, rfl⟩
  have htext : e.content.textOf = none := by rw [hb]; rfl
  have hpass : passState exec rules e = ((none : Option Nat), (none : Option String)) := by
    unfold passState
    rw [htext]
    apply foldl_applyStep_of_no_match
    intro r hr
    rw [himg]
    exact part1 r e.source_app none e.source_title (hall r hr)
  simp [apply_rules, hpass, htext, transformedOf, finishPass]

/-- C7 witness: a rule whose only condition is the content regex `.*` does
not match a concrete image entry, and a pass with only that rule leaves the
image entry untouched. -/
theorem content_regex_never_matches_image_witness :
    rule_matches c7Rule none none true none = false ∧
    apply_rules failExec [c7Rule] c7ImageEntry 0 =
      some { transformed_text := none, expires_at := none, ttl := none } :=
  ⟨content_regex_never_matches_image.1 c7Rule none none none (by rfl),
   content_regex_never_matches_image.2 failExec [c7Rule] c7ImageEntry 0 (by rfl)
     (by intro r hr; rw [List.mem_singleton.mp hr]; rfl)⟩

/-- C10: a rule whose conditions include a source-title regex never matches
an entry whose source window title is absent, for text entries and image
entries alike, regardless of the pattern and of the other conditions. -/
theorem title_regex_requires_title (rule : CompiledRule) (app : Option String)
    (text : Option String) (is_image : Bool)
    (hre : rule.source_title_regex.isSome) :
    rule_matches rule app text is_image none = false := by
  obtain ⟨re, hre'⟩ := Option.isSome_iff_exists.mp hre
  simp [rule_matches, hre', ite_self]

/-- C10 witness: a concrete rule whose only condition is a match-everything
title regex matches neither a title-less text entry nor a title-less image
entry. -/
theorem title_regex_requires_title_witness :
    rule_matches c10Rule none (some "hello") false none = false ∧
    rule_matches c10Rule none none true none = false :=
  ⟨title_regex_requires_title c10Rule none (some "hello") false (by rfl),
   title_regex_requires_title c10Rule none none true (by rfl)⟩

/-- C6: at a TTL of 10^19 ms the conversion chrono::Duration::from_std fails
(the duration cannot be represented), the code substitutes
chrono::Duration::MAX, and the subsequent DateTime + TimeDelta addition
leaves the representable datetime range: apply_rules panics (modelled as a
none result) instead of degrading to a never-expiring entry, contradicting
the claim that the conversion is total over all durations. -/
theorem ttl_overflow_panics_instead_of_degrading :
    chronoFromStd 10000000000000000000 = none ∧
    expiresFromTtl 1760000000000 10000000000000000000 = none ∧
    apply_rules failExec [c6Rule] c6Entry 1760000000000 = none :=
  ⟨by decide, by decide, by decide⟩

/-- A single rule step never changes the running text when command execution
always fails. -/
theorem applyStep_snd_of_fail (exec : ExecOracle)
    (hfail : ∀ c i t, exec c i t = none) (app : Option String) (img : Bool)
    (title : Option String) (st : Option Nat × Option String)
    (rule : CompiledRule) :
    (applyStep exec app img title st rule).2 = st.2 := by
  have hstep : ∀ timeout command txt,
      stepText exec timeout command txt = txt := by
    intro timeout command txt
    unfold stepText
    cases command with
    | none => rfl
    | some cmd =>
      cases txt with
      | none => rfl
      | some input => simp [hfail cmd input timeout]
  unfold applyStep
  split
  · exact hstep _ _ _
  · rfl

/-- The whole pass never changes the running text when command execution
always fails. -/
theorem foldl_applyStep_snd_of_fail (exec : ExecOracle)
    (hfail : ∀ c i t, exec c i t = none) (app : Option String) (img : Bool)
    (title : Option String) :
    ∀ (rules : List CompiledRule) (st : Option Nat × Option String),
      (rules.foldl (applyStep exec app img title) st).2 = st.2 := by
  intro rules
  induction rules with
  | nil => intro st; rfl
  | cons r rs ih =>
    intro st
    rw [List.foldl_cons]
    exact (ih _).trans (applyStep_snd_of_fail exec hfail app img title st r)

/-- C5: when every command invocation fails (spawn failure, non-zero exit,
bad encoding or timeout), each step leaves the running text unchanged and
evaluation continues over the remaining rules with it, the pass is never
aborted by the failure, and the pass produces no transformed-text result. -/
theorem command_failure_is_isolated (exec : ExecOracle)
    (hfail : ∀ c i t, exec c i t = none) :
    (∀ (app : Option String) (img : Bool) (title : Option String)
        (st : Option Nat × Option String) (rule : CompiledRule),
        (applyStep exec app img title st rule).2 = st.2) ∧
    (∀ (rules : List CompiledRule) (e : ClipboardEntry) (now : Int)
        (res : ActionResult),
        apply_rules exec rules e now = some res →
        res.transformed_text = none) := by
  refine ⟨fun app img title st rule =>
    applyStep_snd_of_fail exec hfail app img title st rule, ?_⟩
  intro rules e now res h
  have hsnd : (passState exec rules e).2 = e.content.textOf :=
    foldl_applyStep_snd_of_fail exec hfail e.source_app
      e.content.isImage e.source_title rules (none, e.content.textOf)
  have htr : transformedOf e.content.textOf (passState exec rules e).2 = none := by
    rw [hsnd]
    unfold transformedOf
    cases e.content.textOf with
    | none => rfl
    | some t => simp
  unfold apply_rules at h
  rw [htr] at h
  cases ht1 : (passState exec rules e).1 with
  | none =>
    rw [ht1] at h
    simp only [finishPass, Option.some_inj] at h
    rw [← h]
  | some d =>
    rw [ht1] at h
    simp only [finishPass] at h
    cases he : expiresFromTtl now d with
    | none => rw [he] at h; cases h
    | some ts =>
      rw [he] at h
      simp only [Option.some_inj] at h
      rw [← h]

/-- C5 witness: a matching rule whose command exits non-zero, on input
"hello", yields a pass result with no transformed text. -/
theorem command_failure_is_isolated_witness :
    apply_rules failExec [c5Rule] c5Entry 0 =
      some { transformed_text := none, expires_at := none, ttl := none } ∧
    ({ transformed_text := none, expires_at := none,
       ttl := none } : ActionResult).transformed_text = none :=
  ⟨by decide,
   (command_failure_is_isolated failExec (fun _ _ _ => rfl)).2
     [c5Rule] c5Entry 0 _ (by decide)⟩

/-- The rule loop computes exactly the TTL-overwrite fold: its TTL component
equals the last element of the trace of matched TTLs collected by the
spec-side replay, and its text component evolves identically. -/
theorem foldl_applyStep_eq_trace (exec : ExecOracle) (app : Option String)
    (img : Bool) (title : Option String) :
    ∀ (rules : List CompiledRule) (t0 : Option Nat) (l0 : List Nat)
      (txt : Option String), t0 = l0.getLast? →
      (rules.foldl (applyStep exec app img title) (t0, txt)).1 =
        ((rules.foldl (matchedTtlStep exec app img title) (l0, txt)).1).getLast? ∧
      (rules.foldl (applyStep exec app img title) (t0, txt)).2 =
        (rules.foldl (matchedTtlStep exec app img title) (l0, txt)).2 := by
  intro rules
  induction rules with
  | nil => intro t0 l0 txt h; exact ⟨h, rfl⟩
  | cons r rs ih =>
    intro t0 l0 txt h
    rw [List.foldl_cons, List.foldl_cons]
    by_cases hm : rule_matches r app txt img title = true
    · have h2 : applyStep exec app img title (t0, txt) r =
          ((match r.ttl with | some t => some t | none => t0),
           stepText exec r.command_timeout r.command txt) := by
        simp [applyStep, hm]
      have h3 : matchedTtlStep exec app img title (l0, txt) r =
          ((match r.ttl with | some t => l0 ++ [t] | none => l0),
           stepText exec r.command_timeout r.command txt) := by
        simp [matchedTtlStep, hm]
      rw [h2, h3]
      cases httl : r.ttl with
      | none => exact ih t0 l0 _ h
      | some t => exact ih (some t) (l0 ++ [t]) _ (List.getLast?_concat _).symm
    · have hm' : rule_matches r app txt img title = false :=
        Bool.eq_false_iff.mpr hm
      have h2 : applyStep exec app img title (t0, txt) r = (t0, txt) := by
        simp [applyStep, hm']
      have h3 : matchedTtlStep exec app img title (l0, txt) r = (l0, txt) := by
        simp [matchedTtlStep, hm']
      rw [h2, h3]
      exact ih t0 l0 txt h

/-- C4: the TTL produced by an evaluation pass is the TTL of the last rule
that matched during the pass and specifies one — every later matching
TTL-bearing rule overwrites the earlier value. -/
theorem last_matching_ttl_wins (exec : ExecOracle) (rules : List CompiledRule)
    (e : ClipboardEntry) (now : Int) (res : ActionResult)
    (h : apply_rules exec rules e now = some res) :
    res.ttl = (matchedTtls exec rules e.source_app e.content.isImage
      e.source_title e.content.textOf).getLast? := by
  have key : (passState exec rules e).1 =
      (matchedTtls exec rules e.source_app e.content.isImage
        e.source_title e.content.textOf).getLast? :=
    (foldl_applyStep_eq_trace exec e.source_app e.content.isImage
      e.source_title rules none [] e.content.textOf rfl).1
  unfold apply_rules at h
  rw [← key]
  cases ht1 : (passState exec rules e).1 with
  | none =>
    rw [ht1] at h
    simp only [finishPass, Option.some_inj] at h
    rw [← h]
  | some d =>
    rw [ht1] at h
    simp only [finishPass] at h
    cases he : expiresFromTtl now d with
    | none => rw [he] at h; cases h
    | some ts =>
      rw [he] at h
      simp only [Option.some_inj] at h
      rw [← h]

/-- C4 witness: an entry matched by two rules carrying TTLs of 30s then 60s
in definition order ends the pass with the 60s TTL, the last element of the
matched-TTL trace. -/
theorem last_matching_ttl_wins_witness :
    (matchedTtls failExec [c4Rule30, c4Rule60] c4Entry.source_app
        c4Entry.content.isImage c4Entry.source_title
        c4Entry.content.textOf) = [30000, 60000] ∧
    ({ transformed_text := none, expires_at := some 60000,
       ttl := some 60000 } : ActionResult).ttl =
      (matchedTtls failExec [c4Rule30, c4Rule60] c4Entry.source_app
        c4Entry.content.isImage c4Entry.source_title
        c4Entry.content.textOf).getLast? :=
  ⟨by decide,
   last_matching_ttl_wins failExec [c4Rule30, c4Rule60] c4Entry 0 _ (by decide)⟩

/-- With a representable max_age, prune_expired reports a count rather than
an error. -/
theorem prune_expired_snd_ok (s : Store) (age : Option Nat) (now : Int)
    (hage : AgeOk age) :
    ∃ n, (prune_expired s age now).2 = Except.ok n := by
  cases age with
  | none => exact ⟨_, rfl⟩
  | some a =>
    simp only [prune_expired, hage a rfl, if_true]
    exact ⟨_, rfl⟩

/-- C8: one prune_expired call deletes every row with a past per-entry
expiry (also when no max_age is supplied), additionally deletes every row
created before now - max_age when one is supplied, and returns the sum of
the two deletion counts. -/
theorem prune_expired_additive (s : Store) (age : Nat) (now : Int)
    (hage : age ≤ DELTA_MAX_MS) :
    (prune_expired s (some age) now).2 =
      .ok (s.rows.countP (isExpired now) +
           s.rows.countP (fun r =>
             decide (r.created_at < now - (age : Int)) && !(isExpired now r))) ∧
    (prune_expired s (some age) now).1.rows =
      s.rows.filter (fun r =>
        !(decide (r.created_at < now - (age : Int))) && !(isExpired now r)) ∧
    (∀ r ∈ s.rows, isExpired now r = true →
      r ∉ (prune_expired s none now).1.rows) ∧
    (∀ r ∈ s.rows, isExpired now r = true →
      r ∉ (prune_expired s (some age) now).1.rows) := by
  refine ⟨?_, ?_, ?_, ?_⟩
  · simp only [prune_expired, hage, if_true, if_pos]
    rw [List.countP_filter]
  · simp only [prune_expired, hage, if_true, if_pos]
    rw [List.filter_filter]
  · intro r hr hexp hmem
    simp only [prune_expired] at hmem
    rcases List.mem_filter.mp hmem with ⟨_, hkeep⟩
    rw [hexp] at hkeep
    cases hkeep
  · intro r hr hexp hmem
    simp only [prune_expired, hage, if_true, if_pos] at hmem
    rcases List.mem_filter.mp hmem with ⟨hin, _⟩
    rcases List.mem_filter.mp hin with ⟨_, hkeep⟩
    rw [hexp] at hkeep
    cases hkeep

/-- C2: when save_or_update finds an existing row with the entry's content
hash, it returns that row's id and the row afterwards carries a refreshed
creation timestamp and field-wise COALESCE-merged expiry and source-app: an
incoming some value overwrites, an incoming none preserves the stored
value. -/
theorem dedup_merge_semantics (s : Store) (e : ClipboardEntry) (cap : Nat)
    (age : Option Nat) (now : Int) (ex : Row) (hage : AgeOk age)
    (hfind : find_by_hash (prune_expired s age now).1 e.content_hash = some ex) :
    (save_or_update s e cap age now).2 = .ok ex.id ∧
    ∃ r ∈ (save_or_update s e cap age now).1.rows,
      r.id = ex.id ∧ r.content_hash = ex.content_hash ∧ r.created_at = now ∧
      r.expires_at = coalesce e.expires_at ex.expires_at ∧
      r.source_app = coalesce e.source_app ex.source_app ∧
      (∀ v, e.expires_at = some v → r.expires_at = some v) ∧
      (e.expires_at = none → r.expires_at = ex.expires_at) ∧
      (∀ a, e.source_app = some a → r.source_app = some a) ∧
      (e.source_app = none → r.source_app = ex.source_app) := by
  obtain ⟨n, hok⟩ := prune_expired_snd_ok s age now hage
  rcases hp : prune_expired s age now with ⟨s1, rr⟩
  rw [hp] at hok hfind
  simp only at hok hfind
  subst hok
  have hsave : save_or_update s e cap age now =
      (update_on_dedup s1 ex.id e.expires_at e.source_app now, .ok ex.id) := by
    unfold save_or_update
    rw [hp]
    dsimp only
    rw [hfind]
  rw [hsave]
  have hex_mem : ex ∈ s1.rows := List.mem_of_find?_eq_some hfind
  refine ⟨rfl, ?_⟩
  refine ⟨{ ex with created_at := now, expires_at := coalesce e.expires_at ex.expires_at, source_app := coalesce e.source_app ex.source_app }, ?_, ?_⟩
  · simp only [update_on_dedup]
    have := List.mem_map_of_mem (fun r =>
      if r.id = ex.id then
        { r with created_at := now,
                 expires_at := coalesce e.expires_at r.expires_at,
                 source_app := coalesce e.source_app r.source_app }
      else r) hex_mem
    simpa using this
  · refine ⟨rfl, rfl, rfl, rfl, rfl, ?_, ?_, ?_, ?_⟩
    · intro v hv; simp [hv, coalesce]
    · intro hv; simp [hv, coalesce]
    · intro a ha; simp [ha, coalesce]
    · intro ha; simp [ha, coalesce]

/-- C8 witness: at now = 100 with max_age = 50, the row with past expiry and
the row older than the cutoff are both deleted by one call, the counts sum
to 2, and only the fresh row survives. -/
theorem prune_expired_additive_witness :
    (prune_expired c8Store (some 50) 100).2 = .ok 2 ∧
    (prune_expired c8Store (some 50) 100).1.rows = [c8RowFresh] := by
  have h := prune_expired_additive c8Store 50 100 (by decide)
  refine ⟨?_, ?_⟩
  · rw [h.1]; rfl
  · rw [h.2.1]; decide

/-- C2 witness: saving a duplicate of a stored entry that has an expiry and
a source app, with both fields absent on the incoming entry, returns the
stored id and preserves both stored fields while refreshing created_at. -/
theorem dedup_merge_semantics_witness :
    (save_or_update c2Store c2Entry 500 none 100).2 = .ok 7 ∧
    ∃ r ∈ (save_or_update c2Store c2Entry 500 none 100).1.rows,
      r.id = 7 ∧ r.created_at = 100 ∧ r.expires_at = some 200 ∧
      r.source_app = some "Firefox" := by
  have h := dedup_merge_semantics c2Store c2Entry 500 none 100 c2Row
    (by decide) (by decide)
  obtain ⟨r, hmem, hid, _, hcreated, _, _, _, hexp, _, happ⟩ := h.2
  exact ⟨h.1, r, hmem, hid, hcreated, hexp rfl, happ rfl⟩

/-- C3: once the tracked TTL instant has elapsed the loop always drops the
tracker and re-runs pruning; a restoration write occurs only if the observed
clipboard hash equals the tracked one (so an unreadable clipboard or a
mismatch restores nothing), and on a match the write is the latest active
entry, or a clear-to-empty when none exists. -/
theorem expiry_restore_only_on_hash_match (dec : List Nat → Bool)
    (st : TrackState) (nowI : Nat) (live : Option Nat) (s : Store)
    (age : Option Nat) (now : Int) (t : Nat)
    (hexp : st.current_expiry = some t) (helapsed : t ≤ nowI) :
    (check_expiry_and_restore dec st nowI live s age now).1 =
      { current_expiry := none, current_expiry_hash := none } ∧
    (check_expiry_and_restore dec st nowI live s age now).2.1 =
      (prune_expired s age now).1 ∧
    ((check_expiry_and_restore dec st nowI live s age now).2.2.isSome →
      live.isSome ∧ live = st.current_expiry_hash) ∧
    (live = none ∨ live ≠ st.current_expiry_hash →
      (check_expiry_and_restore dec st nowI live s age now).2.2 = none) ∧
    (∀ h, live = some h → st.current_expiry_hash = some h →
      (get_latest_active (prune_expired s age now).1 now = none →
        (check_expiry_and_restore dec st nowI live s age now).2.2 =
          some { clipboard_hash := EMPTY_HASH, restored_text := "" }) ∧
      (∀ r txt, get_latest_active (prune_expired s age now).1 now = some r →
        r.content = .text txt →
        (check_expiry_and_restore dec st nowI live s age now).2.2 =
          some { clipboard_hash := r.content_hash, restored_text := txt })) := by
  have hne : ¬ nowI < t := Nat.not_lt.mpr helapsed
  rcases hlive : live with _ | c <;> rcases hh : st.current_expiry_hash with _ | x
  · have hred : check_expiry_and_restore dec st nowI none s age now =
        ({ current_expiry := none, current_expiry_hash := none },
         (prune_expired s age now).1, none) := by
      simp [check_expiry_and_restore, hexp, hh, hne]
    rw [hred]
    refine ⟨rfl, rfl, ?_, fun _ => rfl, ?_⟩
    · intro h; simp at h
    · intro h hcontra; simp at hcontra
  · have hred : check_expiry_and_restore dec st nowI none s age now =
        ({ current_expiry := none, current_expiry_hash := none },
         (prune_expired s age now).1, none) := by
      simp [check_expiry_and_restore, hexp, hh, hne]
    rw [hred]
    refine ⟨rfl, rfl, ?_, fun _ => rfl, ?_⟩
    · intro h; simp at h
    · intro h hcontra; simp at hcontra
  · have hred : check_expiry_and_restore dec st nowI (some c) s age now =
        ({ current_expiry := none, current_expiry_hash := none },
         (prune_expired s age now).1, none) := by
      simp [check_expiry_and_restore, hexp, hh, hne]
    rw [hred]
    refine ⟨rfl, rfl, ?_, fun _ => rfl, ?_⟩
    · intro h; simp at h
    · intro h _ hcontra; simp at hcontra
  · by_cases hcx : c = x
    · subst hcx
      cases hlatest : get_latest_active (prune_expired s age now).1 now with
      | none =>
        have hred : check_expiry_and_restore dec st nowI (some c) s age now =
            ({ current_expiry := none, current_expiry_hash := none },
             (prune_expired s age now).1,
             some { clipboard_hash := EMPTY_HASH, restored_text := "" }) := by
          simp [check_expiry_and_restore, hexp, hh, hne, hlatest]
        rw [hred]
        refine ⟨rfl, rfl, fun _ => ⟨rfl, rfl⟩, ?_, ?_⟩
        · intro hmm
          rcases hmm with hmm | hmm
          · simp at hmm
          · exact absurd rfl hmm
        · intro h hch hth
          refine ⟨fun _ => rfl, ?_⟩
          intro r txt hlat hcont
          simp at hlat
      | some r =>
        cases hcont : r.content with
        | text txt =>
          have hred : check_expiry_and_restore dec st nowI (some c) s age now =
              ({ current_expiry := none, current_expiry_hash := none },
               (prune_expired s age now).1,
               some { clipboard_hash := r.content_hash, restored_text := txt }) := by
            simp [check_expiry_and_restore, hexp, hh, hne, hlatest, hcont]
          rw [hred]
          refine ⟨rfl, rfl, fun _ => ⟨rfl, rfl⟩, ?_, ?_⟩
          · intro hmm
            rcases hmm with hmm | hmm
            · simp at hmm
            · exact absurd rfl hmm
          · intro h hch hth
            refine ⟨?_, ?_⟩
            · intro hlat; simp at hlat
            · intro r' txt' hlat hcont'
              rw [Option.some_inj] at hlat
              subst hlat
              rw [hcont] at hcont'
              rw [EntryContent.text.injEq] at hcont'
              rw [hcont']
        | image blob =>
          by_cases hdec : dec blob = true
          · have hred : check_expiry_and_restore dec st nowI (some c) s age now =
                ({ current_expiry := none, current_expiry_hash := none },
                 (prune_expired s age now).1,
                 some { clipboard_hash := r.content_hash, restored_text := "" }) := by
              simp [check_expiry_and_restore, hexp, hh, hne, hlatest, hcont, hdec]
            rw [hred]
            refine ⟨rfl, rfl, fun _ => ⟨rfl, rfl⟩, ?_, ?_⟩
            · intro hmm
              rcases hmm with hmm | hmm
              · simp at hmm
              · exact absurd rfl hmm
            · intro h hch hth
              refine ⟨?_, ?_⟩
              · intro hlat; simp at hlat
              · intro r' txt' hlat hcont'
                rw [Option.some_inj] at hlat
                subst hlat
                rw [hcont] at hcont'
                exact EntryContent.noConfusion hcont'
          · have hred : check_expiry_and_restore dec st nowI (some c) s age now =
                ({ current_expiry := none, current_expiry_hash := none },
                 (prune_expired s age now).1, none) := by
              simp [check_expiry_and_restore, hexp, hh, hne, hlatest, hcont, hdec]
            rw [hred]
            refine ⟨rfl, rfl, ?_, ?_, ?_⟩
            · intro h; simp at h
            · intro _; rfl
            · intro h hch hth
              refine ⟨?_, ?_⟩
              · intro hlat; simp at hlat
              · intro r' txt' hlat hcont'
                rw [Option.some_inj] at hlat
                subst hlat
                rw [hcont] at hcont'
                exact EntryContent.noConfusion hcont'
    · have hbeq : (c == x) = false := beq_eq_false_iff_ne.mpr hcx
      have hred : check_expiry_and_restore dec st nowI (some c) s age now =
          ({ current_expiry := none, current_expiry_hash := none },
           (prune_expired s age now).1, none) := by
        simp [check_expiry_and_restore, hexp, hh, hne, hbeq]
      rw [hred]
      refine ⟨rfl, rfl, ?_, fun _ => rfl, ?_⟩
      · intro h; simp at h
      · intro h hch hth
        rw [Option.some_inj] at hch hth
        exact absurd (hch.trans hth.symm) hcx

/-- C3 witness: a tracked entry with hash 9 whose instant 5 has elapsed at
instant 5, while the live clipboard holds hash 7: the tracker is dropped and
no restoration write occurs. -/
theorem expiry_restore_only_on_hash_match_witness :
    (check_expiry_and_restore (fun _ => true)
        { current_expiry := some 5, current_expiry_hash := some 9 } 5 (some 7)
        Store.empty none 0).1 =
      ({ current_expiry := none, current_expiry_hash := none } : TrackState) ∧
    (check_expiry_and_restore (fun _ => true)
        { current_expiry := some 5, current_expiry_hash := some 9 } 5 (some 7)
        Store.empty none 0).2.2 = none :=
  ⟨(expiry_restore_only_on_hash_match (fun _ => true)
      { current_expiry := some 5, current_expiry_hash := some 9 } 5 (some 7)
      Store.empty none 0 5 rfl (by decide)).1,
   (expiry_restore_only_on_hash_match (fun _ => true)
      { current_expiry := some 5, current_expiry_hash := some 9 } 5 (some 7)
      Store.empty none 0 5 rfl (by decide)).2.2.2.1 (Or.inr (by decide))⟩

/-- rowLE is total (in the Bool sense required by mergeSort). -/
theorem rowLE_total (a b : Row) : (rowLE a b || rowLE b a) = true := by
  unfold rowLE
  simp only [Bool.or_eq_true, Bool.and_eq_true, decide_eq_true_eq]
  omega

/-- rowLE is transitive. -/
theorem rowLE_trans (a b c : Row) (h1 : rowLE a b = true)
    (h2 : rowLE b c = true) : rowLE a c = true := by
  unfold rowLE at h1 h2 ⊢
  simp only [Bool.or_eq_true, Bool.and_eq_true, decide_eq_true_eq] at h1 h2 ⊢
  omega

/-- Rows surviving prune_expired come from the store and are not expired. -/
theorem prune_expired_mem {s : Store} {age : Option Nat} {now : Int} {r : Row}
    (h : r ∈ (prune_expired s age now).1.rows) :
    r ∈ s.rows ∧ isExpired now r = false := by
  cases age with
  | none =>
    simp only [prune_expired] at h
    rcases List.mem_filter.mp h with ⟨h1, h2⟩
    exact ⟨h1, by simpa using h2⟩
  | some a =>
    by_cases ha : a ≤ DELTA_MAX_MS
    · simp only [prune_expired, ha, if_true] at h
      rcases List.mem_filter.mp h with ⟨h1, _⟩
      rcases List.mem_filter.mp h1 with ⟨h2, h3⟩
      exact ⟨h2, by simpa using h3⟩
    · simp only [prune_expired, ha, if_false] at h
      rcases List.mem_filter.mp h with ⟨h1, h2⟩
      exact ⟨h1, by simpa using h2⟩

/-- A live, young-enough row survives prune_expired. -/
theorem mem_prune_expired_of {s : Store} {age : Option Nat} {now : Int}
    {r : Row} (hr : r ∈ s.rows) (hexp : isExpired now r = false)
    (hyoung : ∀ a : Nat, age = some a → ¬(r.created_at < now - (a : Int))) :
    r ∈ (prune_expired s age now).1.rows := by
  cases age with
  | none =>
    simp only [prune_expired]
    exact List.mem_filter.mpr ⟨hr, by simp [hexp]⟩
  | some a =>
    by_cases ha : a ≤ DELTA_MAX_MS
    · simp only [prune_expired, ha, if_true]
      refine List.mem_filter.mpr ⟨List.mem_filter.mpr ⟨hr, by simp [hexp]⟩, ?_⟩
      simpa using hyoung a rfl
    · simp only [prune_expired, ha, if_false]
      exact List.mem_filter.mpr ⟨hr, by simp [hexp]⟩

/-- prune_expired only deletes rows. -/
theorem prune_expired_sublist (s : Store) (age : Option Nat) (now : Int) :
    (prune_expired s age now).1.rows.Sublist s.rows := by
  cases age with
  | none => exact List.filter_sublist s.rows
  | some a =>
    by_cases ha : a ≤ DELTA_MAX_MS
    · simp only [prune_expired, ha, if_true]
      exact (List.filter_sublist _).trans (List.filter_sublist s.rows)
    · simp only [prune_expired, ha, if_false]
      exact List.filter_sublist s.rows

/-- prune_expired does not touch the id counter. -/
theorem prune_expired_nextId (s : Store) (age : Option Nat) (now : Int) :
    (prune_expired s age now).1.nextId = s.nextId := by
  cases age with
  | none => rfl
  | some a => by_cases ha : a ≤ DELTA_MAX_MS <;> simp [prune_expired, ha]

/-- prune_oldest leaves at most max_count rows. -/
theorem prune_oldest_length_le (s : Store) (cap : Nat) :
    (prune_oldest s cap).1.rows.length ≤ cap := by
  by_cases hle : s.rows.length ≤ cap
  · simp only [prune_oldest, hle, if_true]
  · simp only [prune_oldest, hle, if_false]
    have hperm : (s.rows.mergeSort rowLE).Perm s.rows :=
      List.mergeSort_perm s.rows rowLE
    have hlen : (s.rows.mergeSort rowLE).length = s.rows.length :=
      hperm.length_eq
    set n := s.rows.length with hn
    set td := n - cap with htd
    set sorted := s.rows.mergeSort rowLE with hsorted
    set victims := (sorted.take td).map Row.id with hvict
    have hcnt_take : (sorted.take td).countP (fun r => victims.contains r.id) =
        (sorted.take td).length := by
      rw [List.countP_eq_length]
      intro r hr
      exact List.contains_iff_exists_mem_beq.mpr
        ⟨r.id, List.mem_map_of_mem Row.id hr, by simp⟩
    have htake_len : (sorted.take td).length = td := by
      rw [List.length_take, hlen]
      omega
    have hcnt_ge : td ≤ s.rows.countP (fun r => victims.contains r.id) := by
      have hsplit := List.take_append_drop td sorted
      have : sorted.countP (fun r => victims.contains r.id) =
          (sorted.take td).countP (fun r => victims.contains r.id) +
          (sorted.drop td).countP (fun r => victims.contains r.id) := by
        conv_lhs => rw [← hsplit]
        exact List.countP_append _ _ _
      rw [hperm.countP_eq] at this
      omega
    have hkept : (s.rows.filter (fun r => !(victims.contains r.id))).length =
        s.rows.countP (fun r => !(victims.contains r.id)) :=
      (List.countP_eq_length_filter _ _).symm
    have hsum := List.length_eq_countP_add_countP
      (fun r => victims.contains r.id) s.rows
    have hco : s.rows.countP (fun a => decide ¬(victims.contains a.id = true)) =
        s.rows.countP (fun r => !(victims.contains r.id)) := by
      apply List.countP_congr
      intro x hx
      simp
    rw [hco] at hsum
    rw [hkept]
    omega

/-- prune_oldest only deletes rows. -/
theorem prune_oldest_sublist (s : Store) (cap : Nat) :
    (prune_oldest s cap).1.rows.Sublist s.rows := by
  by_cases hle : s.rows.length ≤ cap
  · simp only [prune_oldest, hle, if_true]
    exact List.Sublist.refl _
  · simp only [prune_oldest, hle, if_false]
    exact List.filter_sublist s.rows

/-- Every row deleted by prune_oldest precedes (in creation order) every row
it keeps: the survivors are the most recently created rows. -/
theorem prune_oldest_keeps_recent (s : Store) (cap : Nat) (hnd : NoDupId s) :
    ∀ v ∈ s.rows, v ∉ (prune_oldest s cap).1.rows →
    ∀ k ∈ (prune_oldest s cap).1.rows, rowLE v k = true := by
  intro v hv hvout k hk
  by_cases hle : s.rows.length ≤ cap
  · simp only [prune_oldest, hle, if_true] at hvout
    exact absurd hv hvout
  · simp only [prune_oldest, hle, if_false] at hvout hk
    set td := s.rows.length - cap with htd
    set sorted := s.rows.mergeSort rowLE with hsorted
    set victims := (sorted.take td).map Row.id with hvict
    have hperm : sorted.Perm s.rows := List.mergeSort_perm s.rows rowLE
    have hpw : sorted.Pairwise (fun a b => rowLE a b = true) := by
      have := List.sorted_mergeSort
        (fun a b c h1 h2 => rowLE_trans a b c h1 h2)
        (fun a b => rowLE_total a b) s.rows
      simpa [hsorted] using this
    have hndsorted : sorted.Pairwise (fun a b => a.id ≠ b.id) :=
      (hperm.pairwise_iff (fun h => Ne.symm h)).mpr hnd
    -- v was deleted, hence its id is among the victims
    have hvcont : victims.contains v.id = true := by
      by_contra hc
      have hcf : victims.contains v.id = false := by
        cases hcv : victims.contains v.id
        · rfl
        · exact absurd hcv hc
      exact hvout (List.mem_filter.mpr ⟨hv, by rw [hcf]; rfl⟩)
    have hkmem : k ∈ s.rows := (List.mem_filter.mp hk).1
    have hkcont : victims.contains k.id = false := by
      have := (List.mem_filter.mp hk).2
      simpa using this
    -- the victim occurrence with the id of v is v itself
    obtain ⟨y, hy, hbeq⟩ := List.contains_iff_exists_mem_beq.mp hvcont
    obtain ⟨w, hw, hwy⟩ := List.mem_map.mp hy
    have hwid : w.id = v.id := by
      rw [hwy]
      exact (beq_iff_eq.mp hbeq).symm
    have hvsorted : v ∈ sorted := hperm.mem_iff.mpr hv
    have hwsorted : w ∈ sorted := (List.take_sublist td sorted).mem hw
    have hwv : w = v :=
      pairwise_key_inj Row.id hndsorted w hwsorted v hvsorted hwid
    have hvtake : v ∈ sorted.take td := hwv ▸ hw
    -- k cannot be among the victims, so it sits in the dropped suffix
    have hksorted : k ∈ sorted := hperm.mem_iff.mpr hkmem
    have hkdrop : k ∈ sorted.drop td := by
      rcases (List.mem_append.mp
        ((List.take_append_drop td sorted) ▸ hksorted)) with hkt | hkd
      · exfalso
        have : victims.contains k.id = true :=
          List.contains_iff_exists_mem_beq.mpr
            ⟨k.id, List.mem_map_of_mem Row.id hkt, by simp⟩
        rw [hkcont] at this
        cases this
      · exact hkd
    have hsplit := List.take_append_drop td sorted
    have hpw2 : (sorted.take td ++ sorted.drop td).Pairwise
        (fun a b => rowLE a b = true) := hsplit.symm ▸ hpw
    exact (List.pairwise_append.mp hpw2).2.2 v hvtake k hkdrop

/-- With no stored row carrying the entry's hash, insert_entry appends the
new row under the next id. -/
theorem insert_entry_of_no_dup {s : Store} {e : ClipboardEntry} {now : Int}
    (hany : s.rows.any (fun r => r.content_hash == e.content_hash) = false) :
    insert_entry s e now =
      ({ rows := s.rows ++ [mkRow s.nextId e now], nextId := s.nextId + 1 },
       .ok s.nextId) := by
  simp only [insert_entry, hany]
  rfl

/-- C9 (amended): save_or_update always prunes expired rows before acting
(no id of a then-expired row survives the call), keeps the row count within
max(capacity, previous count) on every path — on the fresh-insert path the
count even drops to at most capacity, while the dedup path merely leaves it
unchanged, since prune_oldest does not run there — and capacity eviction
deletes only rows that precede every survivor in creation order. -/
theorem save_or_update_capacity_and_pruning (s : Store) (e : ClipboardEntry)
    (cap : Nat) (age : Option Nat) (now : Int)
    (hnd : NoDupId s) (hid : IdsBelow s) :
    (save_or_update s e cap age now).1.rows.length ≤ max cap s.rows.length ∧
    (∀ r ∈ s.rows, isExpired now r = true →
      ∀ r' ∈ (save_or_update s e cap age now).1.rows, r'.id ≠ r.id) ∧
    (find_by_hash (prune_expired s age now).1 e.content_hash = none →
      AgeOk age →
      (save_or_update s e cap age now).1.rows.length ≤ cap) ∧
    (∀ (s' : Store) (cap' : Nat), NoDupId s' →
      ∀ v ∈ s'.rows, v ∉ (prune_oldest s' cap').1.rows →
      ∀ k ∈ (prune_oldest s' cap').1.rows, rowLE v k = true) := by
  rcases hp : prune_expired s age now with ⟨s1, rr⟩
  have hfst : (prune_expired s age now).1 = s1 := by rw [hp]
  have hsub1 : s1.rows.Sublist s.rows := hfst ▸ prune_expired_sublist s age now
  have hnext1 : s1.nextId = s.nextId := hfst ▸ prune_expired_nextId s age now
  have hmem1 : ∀ r ∈ s1.rows, r ∈ s.rows ∧ isExpired now r = false := by
    intro r hr
    exact prune_expired_mem (hfst ▸ hr)
  -- the pre-state rows pruned for expiry can never share an id with a result row
  have hnoexp : ∀ (rows2 : List Row),
      (∀ r' ∈ rows2, (∃ r'' ∈ s1.rows, r'.id = r''.id) ∨ r'.id = s.nextId) →
      ∀ r ∈ s.rows, isExpired now r = true → ∀ r' ∈ rows2, r'.id ≠ r.id := by
    intro rows2 hshape r hr hexp r' hr' heq
    rcases hshape r' hr' with ⟨r'', hr'', hid2⟩ | hid2
    · rcases hmem1 r'' hr'' with ⟨hr''s, hnotexp⟩
      have : r'' = r := pairwise_key_inj Row.id hnd r'' hr''s r hr (hid2 ▸ heq)
      rw [this] at hnotexp
      rw [hexp] at hnotexp
      cases hnotexp
    · exact absurd (heq.symm.trans hid2) (Nat.ne_of_lt (hid r hr))
  cases rr with
  | error msg =>
    have hred : save_or_update s e cap age now = (s1, .error msg) := by
      unfold save_or_update
      rw [hp]
    rw [hred]
    refine ⟨le_max_of_le_right hsub1.length_le, ?_, ?_, ?_⟩
    · exact hnoexp s1.rows (fun r' hr' => Or.inl ⟨r', hr', rfl⟩)
    · intro _ hage
      obtain ⟨n, hn⟩ := prune_expired_snd_ok s age now hage
      rw [hp] at hn
      cases hn
    · exact fun s' cap' hnd' => prune_oldest_keeps_recent s' cap' hnd'
  | ok n =>
    cases hfind : find_by_hash s1 e.content_hash with
    | some ex =>
      have hred : save_or_update s e cap age now =
          (update_on_dedup s1 ex.id e.expires_at e.source_app now, .ok ex.id) := by
        unfold save_or_update
        rw [hp]
        dsimp only
        rw [hfind]
      rw [hred]
      refine ⟨?_, ?_, ?_, ?_⟩
      · simp only [update_on_dedup, List.length_map]
        exact le_max_of_le_right hsub1.length_le
      · apply hnoexp
        intro r' hr'
        simp only [update_on_dedup] at hr'
        obtain ⟨r'', hr'', hre⟩ := List.mem_map.mp hr'
        refine Or.inl ⟨r'', hr'', ?_⟩
        rw [← hre]
        by_cases hcase : r''.id = ex.id <;> simp [hcase]
      · intro hnone _
        exact Option.noConfusion hnone
      · exact fun s' cap' hnd' => prune_oldest_keeps_recent s' cap' hnd'
    | none =>
      have hany : s1.rows.any (fun r => r.content_hash == e.content_hash) = false := by
        rw [List.any_eq_false]
        intro r hr
        exact List.find?_eq_none.mp hfind r hr
      have hins := @insert_entry_of_no_dup _ _ now hany
      have hred : save_or_update s e cap age now =
          ((prune_oldest
            { rows := s1.rows ++ [mkRow s1.nextId e now],
              nextId := s1.nextId + 1 } cap).1, .ok s1.nextId) := by
        unfold save_or_update
        rw [hp]
        dsimp only
        rw [hfind]
        dsimp only
        rw [hins]
      rw [hred]
      refine ⟨le_max_of_le_left (prune_oldest_length_le _ cap), ?_, ?_, ?_⟩
      · apply hnoexp
        intro r' hr'
        have hr2 : r' ∈ s1.rows ++ [mkRow s1.nextId e now] :=
          (prune_oldest_sublist _ cap).mem hr'
        rcases List.mem_append.mp hr2 with hr2 | hr2
        · exact Or.inl ⟨r', hr2, rfl⟩
        · rw [List.mem_singleton.mp hr2]
          exact Or.inr hnext1
      · intro _ _
        exact prune_oldest_length_le _ cap
      · exact fun s' cap' hnd' => prune_oldest_keeps_recent s' cap' hnd'

/-- C9 witness: on a store of two live rows with capacity 1, a dedup-merging
save keeps the row count within max(capacity, previous count). -/
theorem save_or_update_capacity_and_pruning_witness :
    (save_or_update c9Store c9Entry 1 none 30).1.rows.length ≤
      max 1 c9Store.rows.length :=
  (save_or_update_capacity_and_pruning c9Store c9Entry 1 none 30
    (by unfold NoDupId; decide) (by unfold IdsBelow; decide)).1

/-- C9 counterexample: the same dedup-merging save on a store of two live
rows with capacity 1 leaves 2 rows — more than the capacity — because
prune_oldest runs only on the fresh-insert path, refuting the claim that
every write path ends with at most capacity entries. -/
theorem dedup_path_skips_capacity_eviction :
    (save_or_update c9Store c9Entry 1 none 30).1.rows.length = 2 ∧
    ¬((save_or_update c9Store c9Entry 1 none 30).1.rows.length ≤ 1) := by
  constructor
  · decide
  · decide

/-- The dedup update leaves every row's content hash (and id) in place. -/
theorem update_on_dedup_preserves (s : Store) (i : Nat) (ea : Option Int)
    (sa : Option String) (now : Int) :
    ∀ r' ∈ (update_on_dedup s i ea sa now).rows,
      ∃ r ∈ s.rows, r'.id = r.id ∧ r'.content_hash = r.content_hash := by
  intro r' hr'
  simp only [update_on_dedup] at hr'
  obtain ⟨r, hr, hre⟩ := List.mem_map.mp hr'
  refine ⟨r, hr, ?_⟩
  rw [← hre]
  by_cases hcase : r.id = i <;> simp [hcase]

/-- save_or_update preserves the all-hashes-distinct invariant. -/
theorem noDupHash_save (s : Store) (e : ClipboardEntry) (cap : Nat)
    (age : Option Nat) (now : Int) (h : NoDupHash s) :
    NoDupHash (save_or_update s e cap age now).1 := by
  rcases hp : prune_expired s age now with ⟨s1, rr⟩
  have hfst : (prune_expired s age now).1 = s1 := by rw [hp]
  have hsub1 : s1.rows.Sublist s.rows := hfst ▸ prune_expired_sublist s age now
  have h1 : NoDupHash s1 := h.sublist hsub1
  cases rr with
  | error msg =>
    have hred : save_or_update s e cap age now = (s1, .error msg) := by
      unfold save_or_update
      rw [hp]
    rw [hred]
    exact h1
  | ok n =>
    cases hfind : find_by_hash s1 e.content_hash with
    | some ex =>
      have hred : save_or_update s e cap age now =
          (update_on_dedup s1 ex.id e.expires_at e.source_app now, .ok ex.id) := by
        unfold save_or_update
        rw [hp]
        dsimp only
        rw [hfind]
      rw [hred]
      unfold NoDupHash update_on_dedup
      dsimp only
      apply List.Pairwise.map
      · intro a b hab
        by_cases ha : a.id = ex.id <;> by_cases hb : b.id = ex.id <;>
          simp [ha, hb] <;> exact hab
      · exact h1
    | none =>
      have hany : s1.rows.any (fun r => r.content_hash == e.content_hash) = false := by
        rw [List.any_eq_false]
        intro r hr
        exact List.find?_eq_none.mp hfind r hr
      have hins := @insert_entry_of_no_dup _ _ now hany
      have hred : save_or_update s e cap age now =
          ((prune_oldest
            { rows := s1.rows ++ [mkRow s1.nextId e now],
              nextId := s1.nextId + 1 } cap).1, .ok s1.nextId) := by
        unfold save_or_update
        rw [hp]
        dsimp only
        rw [hfind]
        dsimp only
        rw [hins]
      rw [hred]
      have h2 : (s1.rows ++ [mkRow s1.nextId e now]).Pairwise
          (fun a b => a.content_hash ≠ b.content_hash) := by
        rw [List.pairwise_append]
        refine ⟨h1, List.pairwise_singleton _ _, ?_⟩
        intro a ha b hb
        rw [List.mem_singleton.mp hb]
        have := List.any_eq_false.mp hany a ha
        intro hcontra
        exact this (by simpa [mkRow] using hcontra)
      exact List.Pairwise.sublist (prune_oldest_sublist _ cap) h2

/-- Every sequence of save_or_update calls starting from the empty store
keeps all content hashes distinct. -/
theorem noDupHash_runSaves (calls : List SaveCall) :
    NoDupHash (runSaves calls) := by
  have key : ∀ (cs : List SaveCall) (s : Store), NoDupHash s →
      NoDupHash (cs.foldl
        (fun s c => (save_or_update s c.entry c.max_history c.max_age c.now).1) s) := by
    intro cs
    induction cs with
    | nil => intro s hs; exact hs
    | cons c cs ih =>
      intro s hs
      exact ih _ (noDupHash_save s c.entry c.max_history c.max_age c.now hs)
  exact key calls Store.empty List.Pairwise.nil

/-- A row that is strictly last in creation order always survives
prune_oldest when the capacity is at least one. -/
theorem prune_oldest_keeps_max (s : Store) (cap : Nat) (hcap : 1 ≤ cap)
    (r : Row) (hr : r ∈ s.rows) (hnd : NoDupId s)
    (hmax : ∀ x ∈ s.rows, x.id ≠ r.id → rowLE r x = false) :
    r ∈ (prune_oldest s cap).1.rows := by
  by_cases hle : s.rows.length ≤ cap
  · simp only [prune_oldest, hle, if_true]
    exact hr
  · simp only [prune_oldest, hle, if_false]
    set td := s.rows.length - cap with htd
    set sorted := s.rows.mergeSort rowLE with hsorted
    set victims := (sorted.take td).map Row.id with hvict
    have hperm : sorted.Perm s.rows := List.mergeSort_perm s.rows rowLE
    have hpw : sorted.Pairwise (fun a b => rowLE a b = true) := by
      have := List.sorted_mergeSort
        (fun a b c h1 h2 => rowLE_trans a b c h1 h2)
        (fun a b => rowLE_total a b) s.rows
      simpa [hsorted] using this
    have hndsorted : sorted.Pairwise (fun a b => a.id ≠ b.id) :=
      (hperm.pairwise_iff (fun h => Ne.symm h)).mpr hnd
    have hrcont : victims.contains r.id = false := by
      cases hcv : victims.contains r.id
      · rfl
      · exfalso
        obtain ⟨y, hy, hbeq⟩ := List.contains_iff_exists_mem_beq.mp hcv
        obtain ⟨w, hw, hwy⟩ := List.mem_map.mp hy
        have hwid : w.id = r.id := by
          rw [hwy]
          exact (beq_iff_eq.mp hbeq).symm
        have hrsorted : r ∈ sorted := hperm.mem_iff.mpr hr
        have hwsorted : w ∈ sorted := (List.take_sublist td sorted).mem hw
        have hwr : w = r :=
          pairwise_key_inj Row.id hndsorted w hwsorted r hrsorted hwid
        have hrtake : r ∈ sorted.take td := hwr ▸ hw
        -- the dropped suffix holds at least cap ≥ 1 rows
        have hlen : sorted.length = s.rows.length := hperm.length_eq
        have hdroplen : 0 < (sorted.drop td).length := by
          rw [List.length_drop, hlen]
          omega
        obtain ⟨k, hk⟩ := List.exists_mem_of_length_pos hdroplen
        have hsplit := List.take_append_drop td sorted
        have hpw2 : (sorted.take td ++ sorted.drop td).Pairwise
            (fun a b => rowLE a b = true) := hsplit.symm ▸ hpw
        have hnd2 : (sorted.take td ++ sorted.drop td).Pairwise
            (fun a b => a.id ≠ b.id) := hsplit.symm ▸ hndsorted
        have hrk : rowLE r k = true :=
          (List.pairwise_append.mp hpw2).2.2 r hrtake k hk
        have hkid : k.id ≠ r.id :=
          Ne.symm ((List.pairwise_append.mp hnd2).2.2 r hrtake k hk)
        have hkmem : k ∈ s.rows :=
          hperm.mem_iff.mp ((List.drop_sublist td sorted).mem hk)
        rw [hmax k hkmem hkid] at hrk
        cases hrk
    refine List.mem_filter.mpr ⟨hr, ?_⟩
    rw [hrcont]
    rfl

/-- When the store holds a live, young-enough row carrying the entry's
content hash and hashes are pairwise distinct, save_or_update dedups onto
exactly that row and returns its id. -/
theorem save_finds_unique (s' : Store) (e : ClipboardEntry) (cap : Nat)
    (age : Option Nat) (now : Int) (u : Row)
    (hage : AgeOk age) (hnh : NoDupHash s')
    (hu : u ∈ s'.rows) (huh : u.content_hash = e.content_hash)
    (hunotexp : isExpired now u = false)
    (huyoung : ∀ a : Nat, age = some a → ¬(u.created_at < now - (a : Int))) :
    (save_or_update s' e cap age now).2 = .ok u.id := by
  obtain ⟨n, hok⟩ := prune_expired_snd_ok s' age now hage
  rcases hp : prune_expired s' age now with ⟨s1', rr⟩
  rw [hp] at hok
  simp only at hok
  subst hok
  have hfst : (prune_expired s' age now).1 = s1' := by rw [hp]
  have humem : u ∈ s1'.rows :=
    hfst ▸ mem_prune_expired_of hu hunotexp huyoung
  have hnh1 : s1'.rows.Pairwise (fun a b => a.content_hash ≠ b.content_hash) :=
    List.Pairwise.sublist (hfst ▸ prune_expired_sublist s' age now) hnh
  have hfind : find_by_hash s1' e.content_hash = some u := by
    cases hf : find_by_hash s1' e.content_hash with
    | none =>
      exfalso
      exact List.find?_eq_none.mp hf u humem (by simp [huh])
    | some r0 =>
      have hf' : s1'.rows.find? (fun r => r.content_hash == e.content_hash) =
          some r0 := hf
      have hr0p := List.find?_some hf'
      have hr0hash : r0.content_hash = e.content_hash := beq_iff_eq.mp hr0p
      have hr0mem : r0 ∈ s1'.rows := List.mem_of_find?_eq_some hf'
      have hr0u : r0 = u :=
        pairwise_key_inj Row.content_hash hnh1 r0 hr0mem u humem
          (hr0hash.trans huh.symm)
      rw [hr0u]
  unfold save_or_update
  rw [hp]
  dsimp only
  rw [hfind]

/-- C1 (amended): provided the stored rows have pairwise-distinct hashes and
ids below the id counter, were created no later than now, the entry's expiry
(if any) has not yet passed, the capacity is at least one and max_age is
representable, two consecutive save_or_update calls with the same entry
return the same id; and any sequence of save_or_update calls from the empty
store leaves no two rows with equal content hash. -/
theorem save_twice_same_id_and_no_dup_hash (s : Store) (e : ClipboardEntry)
    (cap : Nat) (age : Option Nat) (now : Int)
    (hnd : NoDupHash s) (hndid : NoDupId s) (hid : IdsBelow s)
    (hct : ∀ r ∈ s.rows, r.created_at ≤ now)
    (hexp : ∀ t, e.expires_at = some t → now ≤ t)
    (hcap : 1 ≤ cap) (hage : AgeOk age) :
    (∃ id, (save_or_update s e cap age now).2 = .ok id ∧
      (save_or_update (save_or_update s e cap age now).1 e cap age now).2 =
        .ok id) ∧
    (∀ calls : List SaveCall, NoDupHash (runSaves calls)) := by
  refine ⟨?_, noDupHash_runSaves⟩
  obtain ⟨n, hok⟩ := prune_expired_snd_ok s age now hage
  rcases hp : prune_expired s age now with ⟨s1, rr⟩
  rw [hp] at hok
  simp only at hok
  subst hok
  have hfst : (prune_expired s age now).1 = s1 := by rw [hp]
  have hsub1 : s1.rows.Sublist s.rows := hfst ▸ prune_expired_sublist s age now
  have hnext1 : s1.nextId = s.nextId := hfst ▸ prune_expired_nextId s age now
  have hnd1 : NoDupHash s1 := hnd.sublist hsub1
  have hndid1 : NoDupId s1 := hndid.sublist hsub1
  have hmem1 : ∀ r ∈ s1.rows, r ∈ s.rows ∧ isExpired now r = false :=
    fun r hr => prune_expired_mem (hfst ▸ hr)
  cases hfind : find_by_hash s1 e.content_hash with
  | some ex =>
    have hred : save_or_update s e cap age now =
        (update_on_dedup s1 ex.id e.expires_at e.source_app now, .ok ex.id) := by
      unfold save_or_update
      rw [hp]
      dsimp only
      rw [hfind]
    rw [hred]
    refine ⟨ex.id, rfl, ?_⟩
    have hfind' : s1.rows.find? (fun r => r.content_hash == e.content_hash) =
        some ex := hfind
    have hexmem : ex ∈ s1.rows := List.mem_of_find?_eq_some hfind'
    have hexp0 := List.find?_some hfind'
    have hexhash : ex.content_hash = e.content_hash := beq_iff_eq.mp hexp0
    -- the updated row
    set u : Row := { ex with created_at := now, expires_at := coalesce e.expires_at ex.expires_at, source_app := coalesce e.source_app ex.source_app } with hu
    have humem : u ∈ (update_on_dedup s1 ex.id e.expires_at e.source_app now).rows := by
      simp only [update_on_dedup]
      have := List.mem_map_of_mem (fun r =>
        if r.id = ex.id then
          { r with created_at := now,
                   expires_at := coalesce e.expires_at r.expires_at,
                   source_app := coalesce e.source_app r.source_app }
        else r) hexmem
      simpa using this
    have hnh' : NoDupHash (update_on_dedup s1 ex.id e.expires_at e.source_app now) := by
      unfold NoDupHash update_on_dedup
      dsimp only
      apply List.Pairwise.map
      · intro a b hab
        by_cases ha : a.id = ex.id <;> by_cases hb : b.id = ex.id <;>
          simp [ha, hb] <;> exact hab
      · exact hnd1
    have hunotexp : isExpired now u = false := by
      rw [hu]
      cases he : e.expires_at with
      | some t =>
        have := hexp t he
        simp [isExpired, coalesce, he]
        omega
      | none =>
        have hex2 := (hmem1 ex hexmem).2
        simp only [isExpired, coalesce, he]
        simpa [isExpired] using hex2
    have hid_eq : (save_or_update
        (update_on_dedup s1 ex.id e.expires_at e.source_app now)
        e cap age now).2 = .ok u.id :=
      save_finds_unique _ e cap age now u hage hnh' humem
        (by rw [hu]; exact hexhash) hunotexp
        (by intro a ha; rw [hu]; dsimp only; omega)
    rw [hid_eq]
  | none =>
    have hany : s1.rows.any (fun r => r.content_hash == e.content_hash) = false := by
      rw [List.any_eq_false]
      intro r hr
      exact List.find?_eq_none.mp hfind r hr
    have hins := @insert_entry_of_no_dup _ _ now hany
    set s2 : Store := { rows := s1.rows ++ [mkRow s1.nextId e now], nextId := s1.nextId + 1 } with hs2
    have hred : save_or_update s e cap age now =
        ((prune_oldest s2 cap).1, .ok s1.nextId) := by
      unfold save_or_update
      rw [hp]
      dsimp only
      rw [hfind]
      dsimp only
      rw [hins]
    rw [hred]
    refine ⟨s1.nextId, rfl, ?_⟩
    set newRow : Row := mkRow s1.nextId e now with hnr
    have hnew_mem2 : newRow ∈ s2.rows := by
      rw [hs2]
      exact List.mem_append.mpr (Or.inr (List.mem_singleton.mpr rfl))
    have hndid2 : NoDupId s2 := by
      unfold NoDupId
      rw [hs2]
      dsimp only
      rw [List.pairwise_append]
      refine ⟨hndid1, List.pairwise_singleton _ _, ?_⟩
      intro a ha b hb
      rw [List.mem_singleton.mp hb, hnr]
      have : a.id < s.nextId := hid a (hmem1 a ha).1
      simp only [mkRow]
      omega
    have hmax : ∀ x ∈ s2.rows, x.id ≠ newRow.id → rowLE newRow x = false := by
      intro x hx hxid
      have hx1 : x ∈ s1.rows := by
        rcases List.mem_append.mp (hs2 ▸ hx) with hx1 | hx1
        · exact hx1
        · exact absurd (List.mem_singleton.mp hx1 ▸ rfl) hxid
      have hxct : x.created_at ≤ now := hct x (hmem1 x hx1).1
      have hxid2 : x.id < s.nextId := hid x (hmem1 x hx1).1
      have : ¬(rowLE newRow x = true) := by
        unfold rowLE
        rw [hnr]
        simp only [mkRow, Bool.or_eq_true, Bool.and_eq_true, decide_eq_true_eq]
        push_neg
        constructor
        · omega
        · intro _
          omega
      cases hcl : rowLE newRow x
      · rfl
      · exact absurd hcl this
    have hnew_kept : newRow ∈ (prune_oldest s2 cap).1.rows :=
      prune_oldest_keeps_max s2 cap hcap newRow hnew_mem2 hndid2 hmax
    have hnh2 : NoDupHash s2 := by
      unfold NoDupHash
      rw [hs2]
      dsimp only
      rw [List.pairwise_append]
      refine ⟨hnd1, List.pairwise_singleton _ _, ?_⟩
      intro a ha b hb
      rw [List.mem_singleton.mp hb, hnr]
      have := List.any_eq_false.mp hany a ha
      intro hcontra
      exact this (by simpa [mkRow] using hcontra)
    have hnh3 : NoDupHash (prune_oldest s2 cap).1 :=
      List.Pairwise.sublist (prune_oldest_sublist s2 cap) hnh2
    have hid_eq : (save_or_update (prune_oldest s2 cap).1 e cap age now).2 =
        .ok newRow.id :=
      save_finds_unique _ e cap age now newRow hage hnh3 hnew_kept
        (by rw [hnr]; rfl)
        (by
          rw [hnr]
          cases he : e.expires_at with
          | some t =>
            have := hexp t he
            simp [isExpired, mkRow, he]
            omega
          | none => simp [isExpired, mkRow, he])
        (by intro a ha; rw [hnr]; simp only [mkRow]; omega)
    rw [hid_eq]
    rfl

/-- C1 witness: saving a live entry twice into the empty store returns the
same id both times, and no call sequence ever duplicates a content hash. -/
theorem save_twice_same_id_and_no_dup_hash_witness :
    (∃ id, (save_or_update Store.empty c1LiveEntry 5 none 100).2 = .ok id ∧
      (save_or_update (save_or_update Store.empty c1LiveEntry 5 none 100).1
        c1LiveEntry 5 none 100).2 = .ok id) ∧
    (∀ calls : List SaveCall, NoDupHash (runSaves calls)) :=
  save_twice_same_id_and_no_dup_hash Store.empty c1LiveEntry 5 none 100
    (by decide) (by decide) (by decide)
    (by intro r hr; cases hr)
    (by intro t ht; exact Option.noConfusion ht)
    (by decide) (by decide)

/-- C1 counterexample: an entry whose expiry is already past is pruned by
the second call before the dedup lookup, so the second save re-inserts it
under a fresh id — the two calls return different ids, refuting the claim as
stated for every entry. -/
theorem save_twice_id_changes_on_expired_entry :
    (save_or_update Store.empty c1Entry 5 none 1).2 = .ok 0 ∧
    (save_or_update (save_or_update Store.empty c1Entry 5 none 1).1
      c1Entry 5 none 1).2 = .ok 1 ∧
    ¬((save_or_update (save_or_update Store.empty c1Entry 5 none 1).1
        c1Entry 5 none 1).2 =
      (save_or_update Store.empty c1Entry 5 none 1).2) := by
  refine ⟨rfl, rfl, ?_⟩
  intro h
  have h1 : (Except.ok 1 : Except String Nat) = Except.ok 0 := h
  exact absurd (Except.ok.inj h1) (by decide)

end Clio
